import Mathlib

/-!
# NeoStrand pixel-buffer engine: a shallow embedding

This file embeds the pixel-buffer engine of the NeoStrand Arduino library
(`src/arduino/NeoStrand.h`) in Lean 4 and proves the testable properties of
its specification.

Machine integers are modelled as `Nat` with explicit `% 2^w` truncation at the
points where the C code narrows a value (`uint8_t`/`uint16_t` parameters and
assignments).  The strand state is a record holding the pixel count, the
channel offsets inside one pixel slot, and the raw byte buffer as a `List ℕ`.
The two side-effecting primitives the engine consumes (`show()`, i.e. the
display push, and `delay(ms)`) are recorded in an event trace.

Definitions whose C source is the `Adafruit_NeoPixel` base class (which is a
third-party dependency not present in this repository) are modelled from the
specification's data model and carry a doc comment saying so.
-/

namespace NeoStrand

/-- Modelled from the spec: `Adafruit_NeoPixel::Color(r, g, b, w)`, the packed
32-bit color constructor, is not part of this repository's sources.  Per the
spec's data model, the packed value is composed of four 8-bit channels:
White in bits 24–31, Red in bits 16–23, Green in bits 8–15, Blue in bits 0–7;
each input is truncated to 8 bits (the C parameters are `uint8_t`). -/
def Color4 (r g b w : ℕ) : ℕ :=
  (w % 256) * 16777216 + (r % 256) * 65536 + (g % 256) * 256 + (b % 256)

/-- Modelled from the spec: the three-argument `Adafruit_NeoPixel::Color(r, g, b)`
packs an RGB color with a zero White channel. -/
def Color3 (r g b : ℕ) : ℕ := Color4 r g b 0

/-- Accessor `NeoStrand::White`: `(color>>24) & 0xFF`. -/
def White (color : ℕ) : ℕ := (color / 16777216) % 256

/-- Accessor `NeoStrand::Red`: `(color>>16) & 0xFF`. -/
def Red (color : ℕ) : ℕ := (color / 65536) % 256

/-- Accessor `NeoStrand::Green`: `(color>>8) & 0xFF`. -/
def Green (color : ℕ) : ℕ := (color / 256) % 256

/-- Accessor `NeoStrand::Blue`: `color & 0xFF`. -/
def Blue (color : ℕ) : ℕ := color % 256

/-- Source `NeoStrand::Bright(color, bright)`: per-channel scaling by
`channel * (bright+1) / 256` with truncating integer division.  The `bright`
parameter is `uint8_t`, hence the `% 256`; `int factor = bright; factor++;`
never overflows in C because the product fits in an `int`. -/
def Bright (color : ℕ) (bright : ℕ) : ℕ :=
  let factor := bright % 256 + 1
  let w := White color * factor / 256
  let r := Red color * factor / 256
  let g := Green color * factor / 256
  let b := Blue color * factor / 256
  Color4 r g b w

/-- Source `NeoStrand::Wheel(WheelPos)`: hue-wheel color for an 8-bit position.
The parameter is `uint8_t` (hence `% 256`); `255 - WheelPos` never wraps, and
the band arithmetic is done after C integer promotion, so plain `Nat`
arithmetic is exact. -/
def Wheel (wheelPos : ℕ) : ℕ :=
  let p := 255 - wheelPos % 256
  if p < 85 then
    Color3 (255 - p * 3) 0 (p * 3)
  else if p < 170 then
    Color3 0 ((p - 85) * 3) (255 - (p - 85) * 3)
  else
    Color3 ((p - 170) * 3) (255 - (p - 170) * 3) 0

/-- The strand state: pixel count, the four channel byte offsets inside one
pixel slot (from the base class's `rOffset`/`gOffset`/`bOffset`/`wOffset`),
and the raw byte buffer `pixels`.  An RGB-layout strand is recognised by
`wOffset = rOffset`, exactly as in the C source. -/
structure Strand where
  numPixels : ℕ
  rOffset : ℕ
  gOffset : ℕ
  bOffset : ℕ
  wOffset : ℕ
  pixels : List ℕ
deriving Repr, DecidableEq

/-- Source `NeoStrand::isRGBW()`: `wOffset != rOffset`. -/
def Strand.isRGBW (s : Strand) : Prop := s.wOffset ≠ s.rOffset

instance (s : Strand) : Decidable s.isRGBW := by
  unfold Strand.isRGBW; infer_instance

/-- Source `NeoStrand::bytesPerPixel()`: `isRGBW() ? 4 : 3`. -/
def Strand.bytesPerPixel (s : Strand) : ℕ := if s.wOffset = s.rOffset then 3 else 4

/-- The byte stored at buffer offset `j` (reads out of range default to 0;
all in-spec uses stay in range). -/
def Strand.byteAt (s : Strand) (j : ℕ) : ℕ := s.pixels.getD j 0

/-- Well-formedness of a strand state, from the spec's data-model invariants:
the buffer holds `numPixels * stride` bytes, each channel offset addresses a
byte inside one pixel slot, and distinct channels live at distinct offsets. -/
def Strand.WF (s : Strand) : Prop :=
  s.pixels.length = s.numPixels * s.bytesPerPixel ∧
  s.rOffset < s.bytesPerPixel ∧ s.gOffset < s.bytesPerPixel ∧
  s.bOffset < s.bytesPerPixel ∧ s.wOffset < s.bytesPerPixel ∧
  s.rOffset ≠ s.gOffset ∧ s.rOffset ≠ s.bOffset ∧ s.gOffset ≠ s.bOffset ∧
  (s.wOffset ≠ s.rOffset → s.wOffset ≠ s.gOffset ∧ s.wOffset ≠ s.bOffset)

instance (s : Strand) : Decidable s.WF := by
  unfold Strand.WF; infer_instance

/-- Modelled from the spec: `Adafruit_NeoPixel::setPixelColor(n, c)` is not in
this repository's sources.  Per the spec's data model, pixel `n`'s channel
bytes occupy `bytes[n*stride .. n*stride+stride-1]`; the packed color's
channels are written at the configured channel offsets inside that slot
(the White byte only for an RGBW layout), and an out-of-range index is
ignored.  The base class's global-brightness scaling is outside the spec's
data model and not modelled. -/
def setPixelColor (s : Strand) (n : ℕ) (c : ℕ) : Strand :=
  if n < s.numPixels then
    let base := n * s.bytesPerPixel
    let px0 := if s.wOffset = s.rOffset then s.pixels
               else s.pixels.set (base + s.wOffset) (White c)
    let px1 := px0.set (base + s.rOffset) (Red c)
    let px2 := px1.set (base + s.gOffset) (Green c)
    let px3 := px2.set (base + s.bOffset) (Blue c)
    { s with pixels := px3 }
  else s

/-- The two consumed side-effecting primitives, recorded as trace events:
`display` is the base class's `show()` (push buffer to hardware), `wait ms`
is the Arduino `delay(ms)`. -/
inductive Event where
  | display : Event
  | wait : ℕ → Event
deriving Repr, DecidableEq

/-- One iteration of the `wipeWithColor` loop: write the color to pixel `i`,
then, when `wait` is nonzero, display and delay. -/
def wipeStepColor (color wt : ℕ) (acc : Strand × List Event) (i : ℕ) :
    Strand × List Event :=
  let s1 := setPixelColor acc.1 i color
  if wt ≠ 0 then (s1, acc.2 ++ [Event.display, Event.wait wt]) else (s1, acc.2)

/-- Source `NeoStrand::wipeWithColor(color, wait)`: writes `color` to pixels
`0..numPixels-1` in order; with nonzero `wait` it displays and delays after
every write, with zero `wait` it displays once at the end.  The `wait`
parameter is `uint16_t`, hence the `% 65536`. -/
def wipeWithColor (s : Strand) (color : ℕ) (wait : ℕ) : Strand × List Event :=
  let wt := wait % 65536
  let r := (List.range s.numPixels).foldl (wipeStepColor color wt) (s, [])
  if wt = 0 then (r.1, r.2 ++ [Event.display]) else r

/-- One iteration of the `wipeWithRainbow` loop:
`uint16_t hue = shift + (i * 256 / numPixels()); setPixelColor(i, Wheel(hue & 0xFF));`
then the same display/delay step as the color wipe.  `hue` is below 512 so
the `uint16_t` assignment never truncates. -/
def wipeStepRainbow (sh wt : ℕ) (acc : Strand × List Event) (i : ℕ) :
    Strand × List Event :=
  let hue := sh + i * 256 / acc.1.numPixels
  let s1 := setPixelColor acc.1 i (Wheel (hue % 256))
  if wt ≠ 0 then (s1, acc.2 ++ [Event.display, Event.wait wt]) else (s1, acc.2)

/-- Source `NeoStrand::wipeWithRainbow(shift, wait)`: the `shift` parameter is
`uint8_t` and `wait` is `uint16_t`, hence the truncations. -/
def wipeWithRainbow (s : Strand) (shift : ℕ) (wait : ℕ) : Strand × List Event :=
  let sh := shift % 256
  let wt := wait % 65536
  let r := (List.range s.numPixels).foldl (wipeStepRainbow sh wt) (s, [])
  if wt = 0 then (r.1, r.2 ++ [Event.display]) else r

/-- Modelled from the spec: C `memmove(buf+dst, buf+src, len)` restricted to a
single buffer — an overlap-safe block copy, equivalent to copying through a
temporary: byte `j` of the result is byte `src + (j - dst)` of the original
buffer when `dst ≤ j < dst + len`, and is unchanged otherwise. -/
def memmove (buf : List ℕ) (dst src len : ℕ) : List ℕ :=
  (List.range buf.length).map fun j =>
    if dst ≤ j ∧ j < dst + len then buf.getD (src + (j - dst)) 0 else buf.getD j 0

/-- The fill loop of `scrollForward`: `while (amount--) setPixelColor(amount, color);`
writes `color` into pixel slots `a-1, a-2, ..., 0`. -/
def fillDown (color : ℕ) : Strand → ℕ → Strand
  | s, 0 => s
  | s, n + 1 => fillDown color (setPixelColor s n color) n

/-- The fill loop of `scrollBackward`:
`while (amount--) setPixelColor(numPixels()-amount-1, color);`
writes `color` into pixel slots `numPixels-a, ..., numPixels-1`. -/
def fillBack (color : ℕ) : Strand → ℕ → Strand
  | s, 0 => s
  | s, n + 1 => fillBack color (setPixelColor s (s.numPixels - n - 1) color) n

/-- Source `NeoStrand::scrollForward(amount, color)`: returns unchanged on an empty
strand; reduces `amount` modulo the pixel count and returns unchanged when the
reduction is zero; otherwise block-moves `(numPixels-amount)*stride` bytes from
offset 0 to offset `stride*amount` and fills the leading `amount` slots.  The
`amount` parameter is `uint16_t`, hence the `% 65536`.  No display call. -/
def scrollForward (s : Strand) (amount : ℕ) (color : ℕ) : Strand × List Event :=
  if s.numPixels = 0 then (s, []) else
  let stride := s.bytesPerPixel
  let a := amount % 65536 % s.numPixels
  if a = 0 then (s, []) else
  let moved := { s with pixels := memmove s.pixels (stride * a) 0 ((s.numPixels - a) * stride) }
  (fillDown color moved a, [])

/-- Source `NeoStrand::scrollBackward(amount, color)`: mirror of `scrollForward` —
block-moves `(numPixels-amount)*stride` bytes from offset `stride*amount` down
to offset 0 and fills the trailing `amount` slots.  No display call. -/
def scrollBackward (s : Strand) (amount : ℕ) (color : ℕ) : Strand × List Event :=
  if s.numPixels = 0 then (s, []) else
  let stride := s.bytesPerPixel
  let a := amount % 65536 % s.numPixels
  if a = 0 then (s, []) else
  let moved := { s with pixels := memmove s.pixels 0 (stride * a) ((s.numPixels - a) * stride) }
  (fillBack color moved a, [])

/-- Pixel slot `i` of strand `s` holds exactly the channels of packed color
`c`: the Red/Green/Blue bytes at their offsets, and for an RGBW layout also
the White byte. -/
def PixelIs (s : Strand) (i : ℕ) (c : ℕ) : Prop :=
  s.byteAt (i * s.bytesPerPixel + s.rOffset) = Red c ∧
  s.byteAt (i * s.bytesPerPixel + s.gOffset) = Green c ∧
  s.byteAt (i * s.bytesPerPixel + s.bOffset) = Blue c ∧
  (s.wOffset ≠ s.rOffset → s.byteAt (i * s.bytesPerPixel + s.wOffset) = White c)

instance (s : Strand) (i c : ℕ) : Decidable (PixelIs s i c) := by
  unfold PixelIs; infer_instance

/-- Two strand states with the same pixel count, channel offsets and buffer
length.  All engine operations preserve the shape; only the buffer contents
change. -/
def SameShape (a b : Strand) : Prop :=
  a.numPixels = b.numPixels ∧ a.rOffset = b.rOffset ∧ a.gOffset = b.gOffset ∧
  a.bOffset = b.bOffset ∧ a.wOffset = b.wOffset ∧ a.pixels.length = b.pixels.length

/- ### Color codec lemmas -/

lemma White_Color4 (r g b w : ℕ) : White (Color4 r g b w) = w % 256 := by
  unfold White Color4; omega

lemma Red_Color4 (r g b w : ℕ) : Red (Color4 r g b w) = r % 256 := by
  unfold Red Color4; omega

lemma Green_Color4 (r g b w : ℕ) : Green (Color4 r g b w) = g % 256 := by
  unfold Green Color4; omega

lemma Blue_Color4 (r g b w : ℕ) : Blue (Color4 r g b w) = b % 256 := by
  unfold Blue Color4; omega

lemma White_lt (c : ℕ) : White c < 256 := Nat.mod_lt _ (by norm_num)

lemma Red_lt (c : ℕ) : Red c < 256 := Nat.mod_lt _ (by norm_num)

lemma Green_lt (c : ℕ) : Green c < 256 := Nat.mod_lt _ (by norm_num)

lemma Blue_lt (c : ℕ) : Blue c < 256 := Nat.mod_lt _ (by norm_num)

lemma scaled_lt (v f : ℕ) (hv : v < 256) (hf : f ≤ 256) : v * f / 256 < 256 := by
  have h1 : v * f ≤ 255 * 256 := Nat.mul_le_mul (by omega) hf
  omega

/-- C8: packing four 8-bit channels places White in bits 24–31, Red in 16–23,
Green in 8–15, Blue in 0–7, and the four channel accessors recover exactly
the packed values. -/
theorem pack_unpack_roundtrip (w r g b : ℕ)
    (hw : w < 256) (hr : r < 256) (hg : g < 256) (hb : b < 256) :
    Color4 r g b w = w * 16777216 + r * 65536 + g * 256 + b ∧
    White (Color4 r g b w) = w ∧ Red (Color4 r g b w) = r ∧
    Green (Color4 r g b w) = g ∧ Blue (Color4 r g b w) = b := by
  refine ⟨?_, ?_, ?_, ?_, ?_⟩
  · unfold Color4; omega
  · rw [White_Color4]; omega
  · rw [Red_Color4]; omega
  · rw [Green_Color4]; omega
  · rw [Blue_Color4]; omega

/-- Witness for C8 at the concrete channels (w, r, g, b) = (1, 2, 3, 4). -/
theorem pack_unpack_roundtrip_check :
    Color4 2 3 4 1 = 1 * 16777216 + 2 * 65536 + 3 * 256 + 4 ∧
    White (Color4 2 3 4 1) = 1 ∧ Red (Color4 2 3 4 1) = 2 ∧
    Green (Color4 2 3 4 1) = 3 ∧ Blue (Color4 2 3 4 1) = 4 :=
  pack_unpack_roundtrip 1 2 3 4 (by decide) (by decide) (by decide) (by decide)

/-- C7: scaleBrightness computes `channel * (factor+1) / 256` with truncating
division on every channel; with factor 255 no channel increases and each stays
within 1 of the original, and with factor 0 every channel collapses to 0. -/
theorem bright_scales_channels (color bright : ℕ) (hb : bright < 256) :
    (White (Bright color bright) = White color * (bright + 1) / 256 ∧
     Red (Bright color bright) = Red color * (bright + 1) / 256 ∧
     Green (Bright color bright) = Green color * (bright + 1) / 256 ∧
     Blue (Bright color bright) = Blue color * (bright + 1) / 256) ∧
    (bright = 255 →
      White (Bright color bright) ≤ White color ∧
        White color ≤ White (Bright color bright) + 1 ∧
      Red (Bright color bright) ≤ Red color ∧
        Red color ≤ Red (Bright color bright) + 1 ∧
      Green (Bright color bright) ≤ Green color ∧
        Green color ≤ Green (Bright color bright) + 1 ∧
      Blue (Bright color bright) ≤ Blue color ∧
        Blue color ≤ Blue (Bright color bright) + 1) ∧
    (bright = 0 →
      White (Bright color bright) = 0 ∧ Red (Bright color bright) = 0 ∧
      Green (Bright color bright) = 0 ∧ Blue (Bright color bright) = 0) := by
  have hfac : bright % 256 = bright := Nat.mod_eq_of_lt hb
  have hW := scaled_lt (White color) (bright + 1) (White_lt color) (by omega)
  have hR := scaled_lt (Red color) (bright + 1) (Red_lt color) (by omega)
  have hG := scaled_lt (Green color) (bright + 1) (Green_lt color) (by omega)
  have hB := scaled_lt (Blue color) (bright + 1) (Blue_lt color) (by omega)
  have h4 : White (Bright color bright) = White color * (bright + 1) / 256 ∧
      Red (Bright color bright) = Red color * (bright + 1) / 256 ∧
      Green (Bright color bright) = Green color * (bright + 1) / 256 ∧
      Blue (Bright color bright) = Blue color * (bright + 1) / 256 := by
    refine ⟨?_, ?_, ?_, ?_⟩ <;>
      simp only [Bright, White_Color4, Red_Color4, Green_Color4, Blue_Color4, hfac]
    · exact Nat.mod_eq_of_lt hW
    · exact Nat.mod_eq_of_lt hR
    · exact Nat.mod_eq_of_lt hG
    · exact Nat.mod_eq_of_lt hB
  obtain ⟨e1, e2, e3, e4⟩ := h4
  refine ⟨⟨e1, e2, e3, e4⟩, ?_, ?_⟩
  · rintro rfl
    have b1 := White_lt color; have b2 := Red_lt color
    have b3 := Green_lt color; have b4 := Blue_lt color
    omega
  · rintro rfl
    have b1 := White_lt color; have b2 := Red_lt color
    have b3 := Green_lt color; have b4 := Blue_lt color
    omega

/-- Witness for C7 at color `Color4 10 20 30 40` and factor 7. -/
theorem bright_scales_channels_check :
    (White (Bright (Color4 10 20 30 40) 7) = White (Color4 10 20 30 40) * (7 + 1) / 256 ∧
     Red (Bright (Color4 10 20 30 40) 7) = Red (Color4 10 20 30 40) * (7 + 1) / 256 ∧
     Green (Bright (Color4 10 20 30 40) 7) = Green (Color4 10 20 30 40) * (7 + 1) / 256 ∧
     Blue (Bright (Color4 10 20 30 40) 7) = Blue (Color4 10 20 30 40) * (7 + 1) / 256) ∧
    (7 = 255 →
      White (Bright (Color4 10 20 30 40) 7) ≤ White (Color4 10 20 30 40) ∧
        White (Color4 10 20 30 40) ≤ White (Bright (Color4 10 20 30 40) 7) + 1 ∧
      Red (Bright (Color4 10 20 30 40) 7) ≤ Red (Color4 10 20 30 40) ∧
        Red (Color4 10 20 30 40) ≤ Red (Bright (Color4 10 20 30 40) 7) + 1 ∧
      Green (Bright (Color4 10 20 30 40) 7) ≤ Green (Color4 10 20 30 40) ∧
        Green (Color4 10 20 30 40) ≤ Green (Bright (Color4 10 20 30 40) 7) + 1 ∧
      Blue (Bright (Color4 10 20 30 40) 7) ≤ Blue (Color4 10 20 30 40) ∧
        Blue (Color4 10 20 30 40) ≤ Blue (Bright (Color4 10 20 30 40) 7) + 1) ∧
    (7 = 0 →
      White (Bright (Color4 10 20 30 40) 7) = 0 ∧
      Red (Bright (Color4 10 20 30 40) 7) = 0 ∧
      Green (Bright (Color4 10 20 30 40) 7) = 0 ∧
      Blue (Bright (Color4 10 20 30 40) 7) = 0) :=
  bright_scales_channels (Color4 10 20 30 40) 7 (by decide)

/-- C6 counterexample: the claim says each band-boundary color has exactly one
of its R/G/B channels equal to 0, but `Wheel 0` is (255, 0, 0), which has two
channels equal to 0. -/
theorem wheel_boundary_counterexample :
    ¬ ([Red (Wheel 0), Green (Wheel 0), Blue (Wheel 0)].count 0 = 1) := by decide

/-- C6 amended: the three band-boundary colors `Wheel 0`, `Wheel 85`,
`Wheel 170` are the pure primaries (255,0,0), (0,255,0), (0,0,255): each has
exactly one channel nonzero (the dominant channel, at 255) and the other two
channels — so exactly two of the three, not one — equal to 0. -/
theorem wheel_boundary_colors :
    (Red (Wheel 0) = 255 ∧ Green (Wheel 0) = 0 ∧ Blue (Wheel 0) = 0) ∧
    (Red (Wheel 85) = 0 ∧ Green (Wheel 85) = 255 ∧ Blue (Wheel 85) = 0) ∧
    (Red (Wheel 170) = 0 ∧ Green (Wheel 170) = 0 ∧ Blue (Wheel 170) = 255) ∧
    [Red (Wheel 0), Green (Wheel 0), Blue (Wheel 0)].count 0 = 2 ∧
    [Red (Wheel 85), Green (Wheel 85), Blue (Wheel 85)].count 0 = 2 ∧
    [Red (Wheel 170), Green (Wheel 170), Blue (Wheel 170)].count 0 = 2 := by
  decide

set_option maxRecDepth 8192 in
/-- C10: at every 8-bit wheel position the hue-wheel color has a zero White
channel and its Red, Green and Blue channels sum exactly to 255. -/
theorem wheel_white_zero_sum_255 :
    ∀ p < 256, White (Wheel p) = 0 ∧
      Red (Wheel p) + Green (Wheel p) + Blue (Wheel p) = 255 := by decide

/-- Witness for C10 at wheel position 100. -/
theorem wheel_white_zero_sum_255_check :
    White (Wheel 100) = 0 ∧
      Red (Wheel 100) + Green (Wheel 100) + Blue (Wheel 100) = 255 :=
  wheel_white_zero_sum_255 100 (by decide)

/- ### Strand shape lemmas -/

lemma sameShape_refl (s : Strand) : SameShape s s :=
  ⟨rfl, rfl, rfl, rfl, rfl, rfl⟩

lemma sameShape_trans {a b c : Strand} (h1 : SameShape a b) (h2 : SameShape b c) :
    SameShape a c := by
  obtain ⟨e1, e2, e3, e4, e5, e6⟩ := h1
  obtain ⟨f1, f2, f3, f4, f5, f6⟩ := h2
  exact ⟨e1.trans f1, e2.trans f2, e3.trans f3, e4.trans f4, e5.trans f5, e6.trans f6⟩

lemma sameShape_bytesPerPixel {a b : Strand} (h : SameShape a b) :
    a.bytesPerPixel = b.bytesPerPixel := by
  obtain ⟨-, hr, -, -, hw, -⟩ := h
  unfold Strand.bytesPerPixel
  rw [hr, hw]

lemma sameShape_wf {a b : Strand} (h : SameShape a b) (hwf : b.WF) : a.WF := by
  have hbpp := sameShape_bytesPerPixel h
  obtain ⟨hn, hr, hg, hb, hw, hl⟩ := h
  unfold Strand.WF at hwf ⊢
  rw [hbpp, hn, hr, hg, hb, hw, hl]
  exact hwf

/- ### List byte-access lemmas -/

lemma getD_set_ne (l : List ℕ) (i j v : ℕ) (h : i ≠ j) :
    (l.set i v).getD j 0 = l.getD j 0 := by
  simp [List.getD_eq_getElem?_getD, List.getElem?_set_ne h]

lemma getD_set_self (l : List ℕ) (i v : ℕ) (h : i < l.length) :
    (l.set i v).getD i 0 = v := by
  simp [List.getD_eq_getElem?_getD, List.getElem?_set, h]

/- ### setPixelColor lemmas -/

lemma setPixelColor_numPixels (s : Strand) (n c : ℕ) :
    (setPixelColor s n c).numPixels = s.numPixels := by
  unfold setPixelColor; split <;> rfl

lemma setPixelColor_rOffset (s : Strand) (n c : ℕ) :
    (setPixelColor s n c).rOffset = s.rOffset := by
  unfold setPixelColor; split <;> rfl

lemma setPixelColor_gOffset (s : Strand) (n c : ℕ) :
    (setPixelColor s n c).gOffset = s.gOffset := by
  unfold setPixelColor; split <;> rfl

lemma setPixelColor_bOffset (s : Strand) (n c : ℕ) :
    (setPixelColor s n c).bOffset = s.bOffset := by
  unfold setPixelColor; split <;> rfl

lemma setPixelColor_wOffset (s : Strand) (n c : ℕ) :
    (setPixelColor s n c).wOffset = s.wOffset := by
  unfold setPixelColor; split <;> rfl

lemma setPixelColor_length (s : Strand) (n c : ℕ) :
    (setPixelColor s n c).pixels.length = s.pixels.length := by
  unfold setPixelColor
  split
  · simp [List.length_set, apply_ite List.length]
  · rfl

lemma setPixelColor_shape (s : Strand) (n c : ℕ) : SameShape (setPixelColor s n c) s :=
  ⟨setPixelColor_numPixels s n c, setPixelColor_rOffset s n c,
   setPixelColor_gOffset s n c, setPixelColor_bOffset s n c,
   setPixelColor_wOffset s n c, setPixelColor_length s n c⟩

lemma setPixelColor_bytesPerPixel (s : Strand) (n c : ℕ) :
    (setPixelColor s n c).bytesPerPixel = s.bytesPerPixel :=
  sameShape_bytesPerPixel (setPixelColor_shape s n c)

lemma setPixelColor_wf (s : Strand) (n c : ℕ) (hwf : s.WF) :
    (setPixelColor s n c).WF :=
  sameShape_wf (setPixelColor_shape s n c) hwf

lemma setPixelColor_pixels (s : Strand) (n c : ℕ) (hn : n < s.numPixels) :
    (setPixelColor s n c).pixels =
      (((if s.wOffset = s.rOffset then s.pixels
          else s.pixels.set (n * s.bytesPerPixel + s.wOffset) (White c)).set
        (n * s.bytesPerPixel + s.rOffset) (Red c)).set
        (n * s.bytesPerPixel + s.gOffset) (Green c)).set
        (n * s.bytesPerPixel + s.bOffset) (Blue c) := by
  unfold setPixelColor
  rw [if_pos hn]

/-- Frame property: writing pixel `n` leaves every byte outside slot `n`
unchanged. -/
lemma setPixelColor_byteAt_frame (s : Strand) (n c j : ℕ)
    (hr : s.rOffset < s.bytesPerPixel) (hg : s.gOffset < s.bytesPerPixel)
    (hb : s.bOffset < s.bytesPerPixel) (hw : s.wOffset < s.bytesPerPixel)
    (hj : j < n * s.bytesPerPixel ∨ n * s.bytesPerPixel + s.bytesPerPixel ≤ j) :
    (setPixelColor s n c).byteAt j = s.byteAt j := by
  by_cases hn : n < s.numPixels
  · unfold Strand.byteAt
    rw [setPixelColor_pixels s n c hn]
    rw [getD_set_ne _ _ _ _ (by omega), getD_set_ne _ _ _ _ (by omega),
        getD_set_ne _ _ _ _ (by omega)]
    split
    · rfl
    · rw [getD_set_ne _ _ _ _ (by omega)]
  · unfold setPixelColor
    rw [if_neg hn]

/-- Effect property: writing pixel `n` makes slot `n` hold exactly the
channels of the written color. -/
lemma setPixelColor_spec (s : Strand) (n c : ℕ) (hwf : s.WF) (hn : n < s.numPixels) :
    PixelIs (setPixelColor s n c) n c := by
  obtain ⟨hlen, hr, hg, hb, hw, hrg, hrb, hgb, hwx⟩ := hwf
  have hin : ∀ off, off < s.bytesPerPixel →
      n * s.bytesPerPixel + off < s.pixels.length := by
    intro off hoff
    rw [hlen]
    calc n * s.bytesPerPixel + off < (n + 1) * s.bytesPerPixel := by
          rw [Nat.succ_mul]; omega
      _ ≤ s.numPixels * s.bytesPerPixel := Nat.mul_le_mul_right _ (by omega)
  unfold PixelIs Strand.byteAt
  rw [setPixelColor_bytesPerPixel, setPixelColor_rOffset, setPixelColor_gOffset,
      setPixelColor_bOffset, setPixelColor_wOffset, setPixelColor_pixels s n c hn]
  refine ⟨?_, ?_, ?_, ?_⟩
  · rw [getD_set_ne _ _ _ _ (by omega), getD_set_ne _ _ _ _ (by omega)]
    apply getD_set_self
    split <;> (try simp only [List.length_set]) <;> exact hin _ hr
  · rw [getD_set_ne _ _ _ _ (by omega)]
    apply getD_set_self
    simp only [List.length_set]
    split <;> (try simp only [List.length_set]) <;> exact hin _ hg
  · apply getD_set_self
    simp only [List.length_set]
    split <;> (try simp only [List.length_set]) <;> exact hin _ hb
  · intro hne
    have hwg : s.wOffset ≠ s.gOffset := (hwx hne).1
    have hwb : s.wOffset ≠ s.bOffset := (hwx hne).2
    rw [getD_set_ne _ _ _ _ (by omega), getD_set_ne _ _ _ _ (by omega),
        getD_set_ne _ _ _ _ (by omega), if_neg hne]
    exact getD_set_self _ _ _ (hin _ hw)

/-- A strand with the same shape and the same bytes across one pixel slot
holds the same pixel there. -/
lemma pixelIs_congr_bytes {t u : Strand} {i c : ℕ} (hshape : SameShape t u)
    (hwf : u.WF)
    (hbytes : ∀ off, off < u.bytesPerPixel →
      t.byteAt (i * u.bytesPerPixel + off) = u.byteAt (i * u.bytesPerPixel + off))
    (hp : PixelIs u i c) : PixelIs t i c := by
  obtain ⟨-, hr, hg, hb, hw, -, -, -, -⟩ := hwf
  have hbpp := sameShape_bytesPerPixel hshape
  obtain ⟨-, er, eg, eb, ew, -⟩ := hshape
  obtain ⟨p1, p2, p3, p4⟩ := hp
  unfold PixelIs
  rw [hbpp, er, eg, eb, ew]
  exact ⟨(hbytes _ hr).trans p1, (hbytes _ hg).trans p2, (hbytes _ hb).trans p3,
    fun hne => (hbytes _ hw).trans (p4 hne)⟩

/-- Writing a different pixel slot preserves `PixelIs` at slot `i`. -/
lemma pixelIs_frame {s : Strand} {n c2 i c : ℕ} (hwf : s.WF) (hne : i ≠ n)
    (hp : PixelIs s i c) : PixelIs (setPixelColor s n c2) i c := by
  obtain ⟨-, hr, hg, hb, hw, -, -, -, -⟩ := id hwf
  refine pixelIs_congr_bytes (setPixelColor_shape s n c2) hwf ?_ hp
  intro off hoff
  apply setPixelColor_byteAt_frame s n c2 _ hr hg hb hw
  rcases Nat.lt_or_ge i n with hlt | hge
  · left
    calc i * s.bytesPerPixel + off < (i + 1) * s.bytesPerPixel := by
          rw [Nat.succ_mul]; omega
      _ ≤ n * s.bytesPerPixel := Nat.mul_le_mul_right _ (by omega)
  · right
    have : (n + 1) * s.bytesPerPixel ≤ i * s.bytesPerPixel :=
      Nat.mul_le_mul_right _ (by omega)
    rw [Nat.succ_mul] at this
    omega

/- ### Wipe loop lemmas -/

/-- Folding per-index pixel writes preserves the strand shape. -/
lemma foldl_set_shape (f : ℕ → ℕ) (L : List ℕ) :
    ∀ s : Strand, SameShape (L.foldl (fun t k => setPixelColor t k (f k)) s) s := by
  induction L with
  | nil => exact fun s => sameShape_refl s
  | cons x xs ih =>
    intro s
    exact sameShape_trans (ih (setPixelColor s x (f x))) (setPixelColor_shape s x (f x))

/-- After writing pixels `0..n-1` in order with per-index colors `f`, slot `i`
holds the channels of `f i` for every `i < n`. -/
lemma foldl_set_sets (f : ℕ → ℕ) (s : Strand) (hwf : s.WF) :
    ∀ n, n ≤ s.numPixels → ∀ i < n,
      PixelIs ((List.range n).foldl (fun t k => setPixelColor t k (f k)) s) i (f i) := by
  intro n
  induction n with
  | zero => omega
  | succ m ih =>
    intro hn i hi
    rw [List.range_succ, List.foldl_append, List.foldl_cons, List.foldl_nil]
    have hshape := foldl_set_shape f (List.range m) s
    have hTwf := sameShape_wf hshape hwf
    have hTN : ((List.range m).foldl (fun t k => setPixelColor t k (f k)) s).numPixels
        = s.numPixels := hshape.1
    rcases Nat.lt_or_ge i m with hlt | hge
    · exact pixelIs_frame hTwf (by omega) (ih (by omega) i hlt)
    · have hi' : i = m := by omega
      subst hi'
      exact setPixelColor_spec _ i (f i) hTwf (by omega)

/-- Equation form of one color-wipe loop iteration. -/
lemma wipeStepColor_eq (color wt : ℕ) (s : Strand) (evs : List Event) (i : ℕ) :
    wipeStepColor color wt (s, evs) i =
      (setPixelColor s i color,
       if wt ≠ 0 then evs ++ [Event.display, Event.wait wt] else evs) := by
  unfold wipeStepColor
  by_cases h : wt ≠ 0 <;> simp [h]

/-- Equation form of one rainbow-wipe loop iteration. -/
lemma wipeStepRainbow_eq (sh wt : ℕ) (s : Strand) (evs : List Event) (i : ℕ) :
    wipeStepRainbow sh wt (s, evs) i =
      (setPixelColor s i (Wheel ((sh + i * 256 / s.numPixels) % 256)),
       if wt ≠ 0 then evs ++ [Event.display, Event.wait wt] else evs) := by
  unfold wipeStepRainbow
  by_cases h : wt ≠ 0 <;> simp [h]

lemma wipe_fold_fst (color wt : ℕ) (L : List ℕ) :
    ∀ (s : Strand) (evs : List Event),
      (L.foldl (wipeStepColor color wt) (s, evs)).1 =
        L.foldl (fun t k => setPixelColor t k color) s := by
  induction L with
  | nil => intro s evs; rfl
  | cons x xs ih =>
    intro s evs
    rw [List.foldl_cons, List.foldl_cons, wipeStepColor_eq]
    exact ih _ _

lemma wipe_fold_snd_zero (color : ℕ) (L : List ℕ) :
    ∀ (s : Strand) (evs : List Event),
      (L.foldl (wipeStepColor color 0) (s, evs)).2 = evs := by
  induction L with
  | nil => intro s evs; rfl
  | cons x xs ih =>
    intro s evs
    rw [List.foldl_cons, wipeStepColor_eq, if_neg (by omega)]
    exact ih _ _

lemma wipe_fold_snd_pos (color wt : ℕ) (hwt : wt ≠ 0) (L : List ℕ) :
    ∀ (s : Strand) (evs : List Event),
      (L.foldl (wipeStepColor color wt) (s, evs)).2 =
        evs ++ L.flatMap fun _ => [Event.display, Event.wait wt] := by
  induction L with
  | nil => intro s evs; simp
  | cons x xs ih =>
    intro s evs
    rw [List.foldl_cons, wipeStepColor_eq, if_pos hwt, List.flatMap_cons, ih _ _]
    simp

lemma rainbow_fold_fst (sh wt N : ℕ) (L : List ℕ) :
    ∀ (s : Strand) (evs : List Event), s.numPixels = N →
      (L.foldl (wipeStepRainbow sh wt) (s, evs)).1 =
        L.foldl (fun t k => setPixelColor t k (Wheel ((sh + k * 256 / N) % 256))) s := by
  induction L with
  | nil => intro s evs _; rfl
  | cons x xs ih =>
    intro s evs hN
    rw [List.foldl_cons, List.foldl_cons, wipeStepRainbow_eq, hN]
    exact ih _ _ (by rw [setPixelColor_numPixels]; exact hN)

lemma rainbow_fold_snd_zero (sh : ℕ) (L : List ℕ) :
    ∀ (s : Strand) (evs : List Event),
      (L.foldl (wipeStepRainbow sh 0) (s, evs)).2 = evs := by
  induction L with
  | nil => intro s evs; rfl
  | cons x xs ih =>
    intro s evs
    rw [List.foldl_cons, wipeStepRainbow_eq, if_neg (by omega)]
    exact ih _ _

lemma rainbow_fold_snd_pos (sh wt : ℕ) (hwt : wt ≠ 0) (L : List ℕ) :
    ∀ (s : Strand) (evs : List Event),
      (L.foldl (wipeStepRainbow sh wt) (s, evs)).2 =
        evs ++ L.flatMap fun _ => [Event.display, Event.wait wt] := by
  induction L with
  | nil => intro s evs; simp
  | cons x xs ih =>
    intro s evs
    rw [List.foldl_cons, wipeStepRainbow_eq, if_pos hwt, List.flatMap_cons, ih _ _]
    simp

lemma count_pair_events (e : Event) (l : List Event) (L : List ℕ) :
    (L.flatMap fun _ => l).count e = L.length * l.count e := by
  induction L with
  | nil => simp
  | cons x xs ih =>
    rw [List.flatMap_cons, List.count_append, ih, List.length_cons]
    ring

/-- C1 counterexample: on a zero-length strand, `wipeWithColor` with delay 0
still triggers a display call (the trailing `if (!wait) show();` runs), so
"every mutator triggers zero display calls" is false. -/
theorem zero_strand_display_counterexample :
    (wipeWithColor (⟨0, 0, 1, 2, 0, []⟩ : Strand) 123 0).2.count Event.display ≠ 0 := by
  decide

/-- C1 amended: on a zero-length strand every mutator leaves the strand state
unchanged; the scrolls and the wipes with nonzero delay trigger zero display
calls, but a wipe with delay 0 triggers exactly one display call. -/
theorem zero_strand_mutators (s : Strand) (color shift amount fc wait : ℕ)
    (h0 : s.numPixels = 0) (hwait : wait < 65536) :
    (wipeWithColor s color wait).1 = s ∧
    (wipeWithRainbow s shift wait).1 = s ∧
    scrollForward s amount fc = (s, []) ∧
    scrollBackward s amount fc = (s, []) ∧
    (wait = 0 → (wipeWithColor s color wait).2 = [Event.display] ∧
                (wipeWithRainbow s shift wait).2 = [Event.display]) ∧
    (wait ≠ 0 → (wipeWithColor s color wait).2 = [] ∧
                (wipeWithRainbow s shift wait).2 = []) := by
  have hwt : wait % 65536 = wait := Nat.mod_eq_of_lt hwait
  simp only [wipeWithColor, wipeWithRainbow, scrollForward, scrollBackward, hwt, h0,
    List.range_zero, List.foldl_nil, if_true, eq_self_iff_true]
  by_cases h : wait = 0 <;> simp [h]

/-- Witness for C1 (amended) on a concrete empty strand. -/
theorem zero_strand_mutators_check :
    (wipeWithColor (⟨0, 0, 1, 2, 0, []⟩ : Strand) 7 3).1 = (⟨0, 0, 1, 2, 0, []⟩ : Strand) ∧
    (wipeWithRainbow (⟨0, 0, 1, 2, 0, []⟩ : Strand) 9 3).1 = (⟨0, 0, 1, 2, 0, []⟩ : Strand) ∧
    scrollForward (⟨0, 0, 1, 2, 0, []⟩ : Strand) 5 11 = ((⟨0, 0, 1, 2, 0, []⟩ : Strand), []) ∧
    scrollBackward (⟨0, 0, 1, 2, 0, []⟩ : Strand) 5 11 = ((⟨0, 0, 1, 2, 0, []⟩ : Strand), []) ∧
    ((3 : ℕ) = 0 → (wipeWithColor (⟨0, 0, 1, 2, 0, []⟩ : Strand) 7 3).2 = [Event.display] ∧
                   (wipeWithRainbow (⟨0, 0, 1, 2, 0, []⟩ : Strand) 9 3).2 = [Event.display]) ∧
    ((3 : ℕ) ≠ 0 → (wipeWithColor (⟨0, 0, 1, 2, 0, []⟩ : Strand) 7 3).2 = [] ∧
                   (wipeWithRainbow (⟨0, 0, 1, 2, 0, []⟩ : Strand) 9 3).2 = []) :=
  zero_strand_mutators (⟨0, 0, 1, 2, 0, []⟩ : Strand) 7 9 5 11 3 (by decide) (by decide)

/-- C2: `wipeWithColor` writes the color into every pixel slot; with delay 0
it triggers exactly one display call (after all writes) and no waits, with a
nonzero delay it triggers exactly `numPixels` display calls interleaved with
`numPixels` waits, one display-and-wait pair after each single pixel write. -/
theorem wipeSolid_writes_and_displays (s : Strand) (color wait : ℕ)
    (hwf : s.WF) (hN : 0 < s.numPixels) (hwait : wait < 65536) :
    (∀ i < s.numPixels, PixelIs (wipeWithColor s color wait).1 i color) ∧
    (wait = 0 → (wipeWithColor s color wait).2 = [Event.display]) ∧
    (wait ≠ 0 →
      (wipeWithColor s color wait).2 =
        ((List.range s.numPixels).flatMap fun _ => [Event.display, Event.wait wait]) ∧
      (wipeWithColor s color wait).2.count Event.display = s.numPixels ∧
      (wipeWithColor s color wait).2.count (Event.wait wait) = s.numPixels) := by
  have hwt : wait % 65536 = wait := Nat.mod_eq_of_lt hwait
  have hfst : (wipeWithColor s color wait).1 =
      (List.range s.numPixels).foldl (fun t k => setPixelColor t k color) s := by
    simp only [wipeWithColor, hwt]
    by_cases h : wait = 0
    · rw [if_pos h]; exact wipe_fold_fst color wait (List.range s.numPixels) s []
    · rw [if_neg h]; exact wipe_fold_fst color wait (List.range s.numPixels) s []
  refine ⟨?_, ?_, ?_⟩
  · intro i hi
    rw [hfst]
    exact foldl_set_sets (fun _ => color) s hwf s.numPixels le_rfl i hi
  · intro h
    subst h
    simp only [wipeWithColor, hwt]
    rw [if_pos trivial, wipe_fold_snd_zero]
    simp
  · intro h
    have hsnd : (wipeWithColor s color wait).2 =
        (List.range s.numPixels).flatMap fun _ => [Event.display, Event.wait wait] := by
      simp only [wipeWithColor, hwt]
      rw [if_neg h, wipe_fold_snd_pos color wait h]
      simp
    refine ⟨hsnd, ?_, ?_⟩
    · rw [hsnd, count_pair_events, List.length_range]
      simp
    · rw [hsnd, count_pair_events, List.length_range]
      simp

/-- Witness for C2 on a concrete two-pixel RGB strand with delay 0. -/
theorem wipeSolid_writes_and_displays_check :
    (∀ i < (2 : ℕ),
      PixelIs (wipeWithColor (⟨2, 0, 1, 2, 0, [9, 9, 9, 9, 9, 9]⟩ : Strand) 5 0).1 i 5) ∧
    ((0 : ℕ) = 0 →
      (wipeWithColor (⟨2, 0, 1, 2, 0, [9, 9, 9, 9, 9, 9]⟩ : Strand) 5 0).2 = [Event.display]) ∧
    ((0 : ℕ) ≠ 0 →
      (wipeWithColor (⟨2, 0, 1, 2, 0, [9, 9, 9, 9, 9, 9]⟩ : Strand) 5 0).2 =
        ((List.range (2 : ℕ)).flatMap fun _ => [Event.display, Event.wait 0]) ∧
      (wipeWithColor (⟨2, 0, 1, 2, 0, [9, 9, 9, 9, 9, 9]⟩ : Strand) 5 0).2.count
        Event.display = 2 ∧
      (wipeWithColor (⟨2, 0, 1, 2, 0, [9, 9, 9, 9, 9, 9]⟩ : Strand) 5 0).2.count
        (Event.wait 0) = 2) :=
  wipeSolid_writes_and_displays (⟨2, 0, 1, 2, 0, [9, 9, 9, 9, 9, 9]⟩ : Strand) 5 0
    (by decide) (by decide) (by decide)

/-- C5: `wipeWithRainbow` writes into pixel `i` exactly the color
`Wheel ((shift + i*256/numPixels) mod 256)`, so the hue positions with
`shift = 0` are `0, 256/N, 512/N, ...` taken mod 256 across the strand. -/
theorem wipeRainbow_hue_formula (s : Strand) (shift wait : ℕ) (hwf : s.WF)
    (hN : 0 < s.numPixels) (hsh : shift < 256) (hwait : wait < 65536) :
    ∀ i < s.numPixels,
      PixelIs (wipeWithRainbow s shift wait).1 i
        (Wheel ((shift + i * 256 / s.numPixels) % 256)) := by
  have hsh' : shift % 256 = shift := Nat.mod_eq_of_lt hsh
  have hwt : wait % 65536 = wait := Nat.mod_eq_of_lt hwait
  have hfst : (wipeWithRainbow s shift wait).1 =
      (List.range s.numPixels).foldl
        (fun t k => setPixelColor t k (Wheel ((shift + k * 256 / s.numPixels) % 256))) s := by
    simp only [wipeWithRainbow, hsh', hwt]
    by_cases h : wait = 0
    · rw [if_pos h]
      exact rainbow_fold_fst shift wait s.numPixels (List.range s.numPixels) s [] rfl
    · rw [if_neg h]
      exact rainbow_fold_fst shift wait s.numPixels (List.range s.numPixels) s [] rfl
  intro i hi
  rw [hfst]
  exact foldl_set_sets (fun k => Wheel ((shift + k * 256 / s.numPixels) % 256)) s hwf
    s.numPixels le_rfl i hi

/-- Witness for C5 on a concrete four-pixel RGB strand at pixel index 1. -/
theorem wipeRainbow_hue_formula_check :
    PixelIs (wipeWithRainbow
        (⟨4, 0, 1, 2, 0, [0, 0, 0, 0, 0, 0, 0, 0, 0, 0, 0, 0]⟩ : Strand) 0 0).1 1
      (Wheel ((0 + 1 * 256 / (4 : ℕ)) % 256)) :=
  wipeRainbow_hue_formula
    (⟨4, 0, 1, 2, 0, [0, 0, 0, 0, 0, 0, 0, 0, 0, 0, 0, 0]⟩ : Strand) 0 0
    (by decide) (by decide) (by decide) (by decide) 1 (by decide)

/- ### Scroll lemmas -/

lemma memmove_length (buf : List ℕ) (d src len : ℕ) :
    (memmove buf d src len).length = buf.length := by
  simp [memmove]

lemma memmove_getD (buf : List ℕ) (d src len j : ℕ) (hj : j < buf.length) :
    (memmove buf d src len).getD j 0 =
      if d ≤ j ∧ j < d + len then buf.getD (src + (j - d)) 0 else buf.getD j 0 := by
  unfold memmove
  rw [List.getD_eq_getElem?_getD, List.getElem?_map, List.getElem?_range hj]
  rfl

lemma fillDown_shape (c : ℕ) : ∀ (a : ℕ) (s : Strand), SameShape (fillDown c s a) s := by
  intro a
  induction a with
  | zero => exact fun s => sameShape_refl s
  | succ n ih =>
    intro s
    exact sameShape_trans (ih (setPixelColor s n c)) (setPixelColor_shape s n c)

lemma fillDown_frame (c : ℕ) : ∀ (a : ℕ) (s : Strand) (j : ℕ), s.WF →
    a * s.bytesPerPixel ≤ j → (fillDown c s a).byteAt j = s.byteAt j := by
  intro a
  induction a with
  | zero => intro s j _ _; rfl
  | succ n ih =>
    intro s j hwf hj
    obtain ⟨-, hr, hg, hb, hw, -, -, -, -⟩ := id hwf
    show (fillDown c (setPixelColor s n c) n).byteAt j = s.byteAt j
    rw [ih (setPixelColor s n c) j (setPixelColor_wf s n c hwf)
      (by rw [setPixelColor_bytesPerPixel]; rw [Nat.succ_mul] at hj; omega)]
    apply setPixelColor_byteAt_frame s n c j hr hg hb hw
    rw [Nat.succ_mul] at hj
    omega

lemma fillDown_sets (c : ℕ) : ∀ (a : ℕ) (s : Strand), s.WF → a ≤ s.numPixels →
    ∀ i < a, PixelIs (fillDown c s a) i c := by
  intro a
  induction a with
  | zero => omega
  | succ n ih =>
    intro s hwf ha i hi
    show PixelIs (fillDown c (setPixelColor s n c) n) i c
    rcases Nat.lt_or_ge i n with hlt | hge
    · exact ih (setPixelColor s n c) (setPixelColor_wf s n c hwf)
        (by rw [setPixelColor_numPixels]; omega) i hlt
    · have hi' : i = n := by omega
      subst hi'
      have hset : PixelIs (setPixelColor s i c) i c :=
        setPixelColor_spec s i c hwf (by omega)
      have hwf' := setPixelColor_wf s i c hwf
      refine pixelIs_congr_bytes (fillDown_shape c i (setPixelColor s i c)) hwf' ?_ hset
      intro off hoff
      exact fillDown_frame c i (setPixelColor s i c) _ hwf' (Nat.le_add_right _ _)

lemma fillBack_shape (c : ℕ) : ∀ (a : ℕ) (s : Strand), SameShape (fillBack c s a) s := by
  intro a
  induction a with
  | zero => exact fun s => sameShape_refl s
  | succ n ih =>
    intro s
    exact sameShape_trans (ih (setPixelColor s (s.numPixels - n - 1) c))
      (setPixelColor_shape s (s.numPixels - n - 1) c)

lemma fillBack_frame (c : ℕ) : ∀ (a : ℕ) (s : Strand) (j : ℕ), s.WF →
    a ≤ s.numPixels → j < (s.numPixels - a) * s.bytesPerPixel →
    (fillBack c s a).byteAt j = s.byteAt j := by
  intro a
  induction a with
  | zero => intro s j _ _ _; rfl
  | succ n ih =>
    intro s j hwf ha hj
    obtain ⟨-, hr, hg, hb, hw, -, -, -, -⟩ := id hwf
    show (fillBack c (setPixelColor s (s.numPixels - n - 1) c) n).byteAt j = s.byteAt j
    have hmono : (s.numPixels - (n + 1)) * s.bytesPerPixel ≤
        (s.numPixels - n) * s.bytesPerPixel :=
      Nat.mul_le_mul_right _ (by omega)
    rw [ih (setPixelColor s (s.numPixels - n - 1) c) j
      (setPixelColor_wf s _ c hwf)
      (by rw [setPixelColor_numPixels]; omega)
      (by rw [setPixelColor_numPixels, setPixelColor_bytesPerPixel]; omega)]
    apply setPixelColor_byteAt_frame s _ c j hr hg hb hw
    left
    have : s.numPixels - (n + 1) = s.numPixels - n - 1 := by omega
    rw [this] at hj
    exact Nat.lt_of_lt_of_le hj (Nat.le_refl _)

lemma fillBack_sets (c : ℕ) : ∀ (a : ℕ) (s : Strand), s.WF → a ≤ s.numPixels →
    ∀ i, s.numPixels - a ≤ i → i < s.numPixels → PixelIs (fillBack c s a) i c := by
  intro a
  induction a with
  | zero => omega
  | succ n ih =>
    intro s hwf ha i hlo hhi
    show PixelIs (fillBack c (setPixelColor s (s.numPixels - n - 1) c) n) i c
    rcases Nat.lt_or_ge i (s.numPixels - n) with hlt | hge
    · have hi' : i = s.numPixels - n - 1 := by omega
      subst hi'
      have hset : PixelIs (setPixelColor s (s.numPixels - n - 1) c)
          (s.numPixels - n - 1) c :=
        setPixelColor_spec s _ c hwf (by omega)
      have hwf' := setPixelColor_wf s (s.numPixels - n - 1) c hwf
      refine pixelIs_congr_bytes
        (fillBack_shape c n (setPixelColor s (s.numPixels - n - 1) c)) hwf' ?_ hset
      intro off hoff
      rw [setPixelColor_bytesPerPixel] at hoff
      apply fillBack_frame c n _ _ hwf'
      · rw [setPixelColor_numPixels]; omega
      · rw [setPixelColor_numPixels, setPixelColor_bytesPerPixel]
        calc (s.numPixels - n - 1) * s.bytesPerPixel + off
            < (s.numPixels - n - 1 + 1) * s.bytesPerPixel := by rw [Nat.succ_mul]; omega
          _ ≤ (s.numPixels - n) * s.bytesPerPixel :=
              Nat.mul_le_mul_right _ (by omega)
    · exact ih (setPixelColor s (s.numPixels - n - 1) c)
        (setPixelColor_wf s _ c hwf)
        (by rw [setPixelColor_numPixels]; omega) i
        (by rw [setPixelColor_numPixels]; omega)
        (by rw [setPixelColor_numPixels]; omega)

/-- Full behaviour of a non-trivial `scrollForward`: shape preserved, no
events, moved block, and filled leading slots. -/
lemma scrollForward_spec (s : Strand) (amount c : ℕ) (hwf : s.WF)
    (hN : 0 < s.numPixels) (hamt : amount < 65536)
    (ha : amount % s.numPixels ≠ 0) :
    SameShape (scrollForward s amount c).1 s ∧
    (scrollForward s amount c).2 = [] ∧
    (∀ j < (s.numPixels - amount % s.numPixels) * s.bytesPerPixel,
      (scrollForward s amount c).1.byteAt
        (s.bytesPerPixel * (amount % s.numPixels) + j) = s.byteAt j) ∧
    (∀ i < amount % s.numPixels, PixelIs (scrollForward s amount c).1 i c) := by
  have hamt' : amount % 65536 = amount := Nat.mod_eq_of_lt hamt
  have haN : amount % s.numPixels < s.numPixels := Nat.mod_lt _ hN
  have heq : scrollForward s amount c =
      (fillDown c
        { s with pixels :=
            (memmove s.pixels (s.bytesPerPixel * (amount % s.numPixels)) 0
              ((s.numPixels - amount % s.numPixels) * s.bytesPerPixel)) }
        (amount % s.numPixels), []) := by
    simp only [scrollForward, hamt']
    rw [if_neg (by omega : ¬ s.numPixels = 0), if_neg ha]
  set a := amount % s.numPixels with hadef
  set moved : Strand :=
    { s with pixels :=
        (memmove s.pixels (s.bytesPerPixel * a) 0
          ((s.numPixels - a) * s.bytesPerPixel)) } with hmdef
  have hmshape : SameShape moved s :=
    ⟨rfl, rfl, rfl, rfl, rfl, memmove_length _ _ _ _⟩
  have hmwf : moved.WF := sameShape_wf hmshape hwf
  have hmbpp : moved.bytesPerPixel = s.bytesPerPixel := rfl
  have hmN : moved.numPixels = s.numPixels := rfl
  refine ⟨?_, ?_, ?_, ?_⟩
  · rw [heq]
    exact sameShape_trans (fillDown_shape c a moved) hmshape
  · rw [heq]
  · intro j hj
    rw [heq]
    show (fillDown c moved a).byteAt (s.bytesPerPixel * a + j) = s.byteAt j
    rw [fillDown_frame c a moved _ hmwf
      (by rw [hmbpp]; have := Nat.mul_comm a s.bytesPerPixel; omega)]
    show (memmove s.pixels (s.bytesPerPixel * a) 0
      ((s.numPixels - a) * s.bytesPerPixel)).getD (s.bytesPerPixel * a + j) 0 =
      s.byteAt j
    have hsub : (s.numPixels - a) * s.bytesPerPixel =
        s.numPixels * s.bytesPerPixel - a * s.bytesPerPixel := Nat.sub_mul _ _ _
    have hle : a * s.bytesPerPixel ≤ s.numPixels * s.bytesPerPixel :=
      Nat.mul_le_mul_right _ (by omega)
    have hcomm := Nat.mul_comm a s.bytesPerPixel
    have hlen : s.bytesPerPixel * a + j < s.pixels.length := by
      rw [hwf.1]; omega
    rw [memmove_getD _ _ _ _ _ hlen, if_pos ⟨Nat.le_add_right _ _, by omega⟩]
    have harg : 0 + (s.bytesPerPixel * a + j - s.bytesPerPixel * a) = j := by omega
    rw [harg]
    rfl
  · intro i hi
    rw [heq]
    exact fillDown_sets c a moved hmwf (by rw [hmN]; omega) i hi

/-- Full behaviour of a non-trivial `scrollBackward`: shape preserved, no
events, moved block, and filled trailing slots. -/
lemma scrollBackward_spec (s : Strand) (amount c : ℕ) (hwf : s.WF)
    (hN : 0 < s.numPixels) (hamt : amount < 65536)
    (ha : amount % s.numPixels ≠ 0) :
    SameShape (scrollBackward s amount c).1 s ∧
    (scrollBackward s amount c).2 = [] ∧
    (∀ j < (s.numPixels - amount % s.numPixels) * s.bytesPerPixel,
      (scrollBackward s amount c).1.byteAt j =
        s.byteAt (s.bytesPerPixel * (amount % s.numPixels) + j)) ∧
    (∀ i, s.numPixels - amount % s.numPixels ≤ i → i < s.numPixels →
      PixelIs (scrollBackward s amount c).1 i c) := by
  have hamt' : amount % 65536 = amount := Nat.mod_eq_of_lt hamt
  have haN : amount % s.numPixels < s.numPixels := Nat.mod_lt _ hN
  have heq : scrollBackward s amount c =
      (fillBack c
        { s with pixels :=
            (memmove s.pixels 0 (s.bytesPerPixel * (amount % s.numPixels))
              ((s.numPixels - amount % s.numPixels) * s.bytesPerPixel)) }
        (amount % s.numPixels), []) := by
    simp only [scrollBackward, hamt']
    rw [if_neg (by omega : ¬ s.numPixels = 0), if_neg ha]
  set a := amount % s.numPixels with hadef
  set moved : Strand :=
    { s with pixels :=
        (memmove s.pixels 0 (s.bytesPerPixel * a)
          ((s.numPixels - a) * s.bytesPerPixel)) } with hmdef
  have hmshape : SameShape moved s :=
    ⟨rfl, rfl, rfl, rfl, rfl, memmove_length _ _ _ _⟩
  have hmwf : moved.WF := sameShape_wf hmshape hwf
  have hmbpp : moved.bytesPerPixel = s.bytesPerPixel := rfl
  have hmN : moved.numPixels = s.numPixels := rfl
  refine ⟨?_, ?_, ?_, ?_⟩
  · rw [heq]
    exact sameShape_trans (fillBack_shape c a moved) hmshape
  · rw [heq]
  · intro j hj
    rw [heq]
    show (fillBack c moved a).byteAt j = s.byteAt (s.bytesPerPixel * a + j)
    rw [fillBack_frame c a moved _ hmwf (by rw [hmN]; omega)
      (by rw [hmN, hmbpp]; omega)]
    show (memmove s.pixels 0 (s.bytesPerPixel * a)
      ((s.numPixels - a) * s.bytesPerPixel)).getD j 0 =
      s.byteAt (s.bytesPerPixel * a + j)
    have hsub : (s.numPixels - a) * s.bytesPerPixel =
        s.numPixels * s.bytesPerPixel - a * s.bytesPerPixel := Nat.sub_mul _ _ _
    have hle : a * s.bytesPerPixel ≤ s.numPixels * s.bytesPerPixel :=
      Nat.mul_le_mul_right _ (by omega)
    have hcomm := Nat.mul_comm a s.bytesPerPixel
    have hlen : j < s.pixels.length := by
      rw [hwf.1]; omega
    rw [memmove_getD _ _ _ _ _ hlen, if_pos ⟨Nat.zero_le _, by omega⟩]
    have harg : s.bytesPerPixel * a + (j - 0) = s.bytesPerPixel * a + j := by omega
    rw [harg]
    rfl
  · intro i hlo hhi
    rw [heq]
    exact fillBack_sets c a moved hmwf (by rw [hmN]; omega) i
      (by rw [hmN]; omega) (by rw [hmN]; omega)

/-- C9: a scroll whose amount reduces to 0 modulo the pixel count — including
the zero-pixel-count case — returns the strand unchanged, byte for byte, and
triggers no display call; in either direction. -/
theorem scroll_zero_reduction_noop (s : Strand) (amount c : ℕ)
    (hamt : amount < 65536)
    (h : s.numPixels = 0 ∨ amount % s.numPixels = 0) :
    scrollForward s amount c = (s, []) ∧ scrollBackward s amount c = (s, []) := by
  have hamt' : amount % 65536 = amount := Nat.mod_eq_of_lt hamt
  by_cases h0 : s.numPixels = 0
  · refine ⟨?_, ?_⟩ <;> simp [scrollForward, scrollBackward, h0]
  · have ha : amount % s.numPixels = 0 := h.resolve_left h0
    refine ⟨?_, ?_⟩ <;> simp [scrollForward, scrollBackward, h0, hamt', ha]

/-- Witness for C9: scrolling a two-pixel strand by 4 (≡ 0 mod 2) is a no-op. -/
theorem scroll_zero_reduction_noop_check :
    scrollForward (⟨2, 0, 1, 2, 0, [1, 2, 3, 4, 5, 6]⟩ : Strand) 4 9 =
      ((⟨2, 0, 1, 2, 0, [1, 2, 3, 4, 5, 6]⟩ : Strand), []) ∧
    scrollBackward (⟨2, 0, 1, 2, 0, [1, 2, 3, 4, 5, 6]⟩ : Strand) 4 9 =
      ((⟨2, 0, 1, 2, 0, [1, 2, 3, 4, 5, 6]⟩ : Strand), []) :=
  scroll_zero_reduction_noop (⟨2, 0, 1, 2, 0, [1, 2, 3, 4, 5, 6]⟩ : Strand) 4 9
    (by decide) (Or.inr (by decide))

/-- C3: a `scrollForward` whose reduced amount `a` is nonzero moves pixel
`i - a` into pixel `i` for every `i ∈ [a, numPixels)` (stated per byte), is a
contiguous block move of `(numPixels - a) * stride` bytes from offset 0 to
offset `stride * a`, fills pixels `[0, a)` with the fill color, and triggers
no display call. -/
theorem scrollForward_shifts (s : Strand) (amount c : ℕ) (hwf : s.WF)
    (hN : 0 < s.numPixels) (hamt : amount < 65536)
    (ha : amount % s.numPixels ≠ 0) :
    (∀ i, amount % s.numPixels ≤ i → i < s.numPixels → ∀ k < s.bytesPerPixel,
      (scrollForward s amount c).1.byteAt (i * s.bytesPerPixel + k) =
        s.byteAt ((i - amount % s.numPixels) * s.bytesPerPixel + k)) ∧
    (∀ j < (s.numPixels - amount % s.numPixels) * s.bytesPerPixel,
      (scrollForward s amount c).1.byteAt
        (s.bytesPerPixel * (amount % s.numPixels) + j) = s.byteAt j) ∧
    (∀ i < amount % s.numPixels, PixelIs (scrollForward s amount c).1 i c) ∧
    (scrollForward s amount c).2 = [] := by
  obtain ⟨hshape, hsnd, hbytes, hfill⟩ := scrollForward_spec s amount c hwf hN hamt ha
  refine ⟨?_, hbytes, hfill, hsnd⟩
  intro i hlo hhi k hk
  set a := amount % s.numPixels with hadef
  have hidx : i * s.bytesPerPixel + k =
      s.bytesPerPixel * a + ((i - a) * s.bytesPerPixel + k) := by
    have h1 : i * s.bytesPerPixel = (a + (i - a)) * s.bytesPerPixel := by
      congr 1
      omega
    rw [h1, Nat.add_mul, Nat.mul_comm a s.bytesPerPixel]
    omega
  rw [hidx]
  apply hbytes
  calc (i - a) * s.bytesPerPixel + k < (i - a + 1) * s.bytesPerPixel := by
        rw [Nat.succ_mul]; omega
    _ ≤ (s.numPixels - a) * s.bytesPerPixel := Nat.mul_le_mul_right _ (by omega)

/-- Witness for C3 on a concrete two-pixel RGB strand scrolled by 1. -/
theorem scrollForward_shifts_check :
    (∀ i, 1 % (2 : ℕ) ≤ i → i < 2 → ∀ k < (3 : ℕ),
      (scrollForward (⟨2, 0, 1, 2, 0, [1, 2, 3, 4, 5, 6]⟩ : Strand) 1 7).1.byteAt
          (i * 3 + k) =
        Strand.byteAt (⟨2, 0, 1, 2, 0, [1, 2, 3, 4, 5, 6]⟩ : Strand)
          ((i - 1 % 2) * 3 + k)) ∧
    (∀ j < ((2 : ℕ) - 1 % 2) * 3,
      (scrollForward (⟨2, 0, 1, 2, 0, [1, 2, 3, 4, 5, 6]⟩ : Strand) 1 7).1.byteAt
          (3 * (1 % 2) + j) =
        Strand.byteAt (⟨2, 0, 1, 2, 0, [1, 2, 3, 4, 5, 6]⟩ : Strand) j) ∧
    (∀ i < 1 % (2 : ℕ),
      PixelIs (scrollForward (⟨2, 0, 1, 2, 0, [1, 2, 3, 4, 5, 6]⟩ : Strand) 1 7).1 i 7) ∧
    (scrollForward (⟨2, 0, 1, 2, 0, [1, 2, 3, 4, 5, 6]⟩ : Strand) 1 7).2 = [] :=
  scrollForward_shifts (⟨2, 0, 1, 2, 0, [1, 2, 3, 4, 5, 6]⟩ : Strand) 1 7
    (by decide) (by decide) (by decide) (by decide)

/-- C4: scrolling forward then backward by the same amount does not restore
the original buffer (shown on a concrete strand whose far-end content is
discarded), while after the forward call the reduced-amount leading pixels
equal the fill color, and after the subsequent backward call the
reduced-amount trailing pixels equal the fill color. -/
theorem scroll_roundtrip_lossy :
    ((scrollBackward
        (scrollForward (⟨2, 0, 1, 2, 0, [1, 2, 3, 4, 5, 6]⟩ : Strand) 1 0).1
        1 0).1.pixels ≠ [1, 2, 3, 4, 5, 6]) ∧
    (∀ (s : Strand) (amount c : ℕ), s.WF → 0 < s.numPixels → amount < 65536 →
      (∀ i < amount % s.numPixels, PixelIs (scrollForward s amount c).1 i c) ∧
      (∀ i, s.numPixels - amount % s.numPixels ≤ i → i < s.numPixels →
        PixelIs (scrollBackward (scrollForward s amount c).1 amount c).1 i c)) := by
  constructor
  · decide
  · intro s amount c hwf hN hamt
    by_cases ha : amount % s.numPixels = 0
    · exact ⟨fun i hi => absurd hi (by omega),
        fun i hlo hhi => absurd hhi (by omega)⟩
    · obtain ⟨hshape, -, -, hfill⟩ := scrollForward_spec s amount c hwf hN hamt ha
      refine ⟨hfill, ?_⟩
      have hN' : (scrollForward s amount c).1.numPixels = s.numPixels := hshape.1
      have hwf' : (scrollForward s amount c).1.WF := sameShape_wf hshape hwf
      have ha' : amount % (scrollForward s amount c).1.numPixels ≠ 0 := by
        rw [hN']; exact ha
      obtain ⟨-, -, -, hfill2⟩ := scrollBackward_spec (scrollForward s amount c).1
        amount c hwf' (by omega) hamt ha'
      rw [hN'] at hfill2
      intro i hlo hhi
      exact hfill2 i hlo hhi

/-- Witness for C4's universal part on the same concrete strand. -/
theorem scroll_roundtrip_lossy_check :
    (∀ i < 1 % (2 : ℕ),
      PixelIs (scrollForward (⟨2, 0, 1, 2, 0, [1, 2, 3, 4, 5, 6]⟩ : Strand) 1 0).1 i 0) ∧
    (∀ i, (2 : ℕ) - 1 % 2 ≤ i → i < 2 →
      PixelIs (scrollBackward
        (scrollForward (⟨2, 0, 1, 2, 0, [1, 2, 3, 4, 5, 6]⟩ : Strand) 1 0).1
        1 0).1 i 0) :=
  scroll_roundtrip_lossy.2 (⟨2, 0, 1, 2, 0, [1, 2, 3, 4, 5, 6]⟩ : Strand) 1 0
    (by decide) (by decide) (by decide)

end NeoStrand
